import Mathlib

set_option maxHeartbeats 1000000

/-!
Verification development for the image archive extraction and
manifest-resolution subsystem of `recommend/imageHandler.go`.

The Go source is shallowly embedded: the path routines from Go's
`path/filepath` (unix separators) are modelled over `List Char`, the tar
stream is modelled as an inductive sequence of entries whose regular-file
contents are either opaque bytes, a parsed nested tar stream, or a parsed
JSON document, and the on-disk state touched by extraction is threaded
explicitly.  `log.Fatal` / runtime panics, which abort the process, are
modelled as `Except` errors; operating-system failures (permissions, disk
full) are outside the model.
-/

namespace KArmor

/-- Splitting a character list at every `'/'`, the component decomposition
used by Go `path/filepath.Clean` on unix.  `splitSlash` never returns `[]`;
empty components mark leading, trailing or repeated separators. -/
def splitSlash : List Char → List (List Char)
  | [] => [[]]
  | c :: rest =>
    if c = '/' then [] :: splitSlash rest
    else
      match splitSlash rest with
      | comp :: comps => (c :: comp) :: comps
      | [] => [[c]]

/-- The component stack loop of Go `path/filepath.Clean`: empty and `"."`
components are dropped; `".."` pops the last real component, is dropped at
the root of a rooted path, and is kept in an unrooted path that has no
component left to pop.  `acc` is the stack of kept components, most recent
first. -/
def cleanLoop (rooted : Bool) : List (List Char) → List (List Char) → List (List Char)
  | acc, [] => acc.reverse
  | acc, comp :: comps =>
    if comp = [] ∨ comp = ['.'] then cleanLoop rooted acc comps
    else if comp = ['.', '.'] then
      match acc with
      | [] =>
        if rooted then cleanLoop rooted [] comps
        else cleanLoop rooted [['.', '.']] comps
      | top :: acc' =>
        if top = ['.', '.'] then cleanLoop rooted (comp :: acc) comps
        else cleanLoop rooted acc' comps
    else cleanLoop rooted (comp :: acc) comps

/-- Rejoining cleaned components with `'/'`. -/
def joinComps : List (List Char) → List Char
  | [] => []
  | [comp] => comp
  | comp :: comps => comp ++ '/' :: joinComps comps

/-- Model of Go `path/filepath.Clean` (unix separators) on a character
list: the empty path cleans to `"."`, a rooted path keeps its leading
slash, and an unrooted path whose components all cancel cleans to `"."`. -/
def cleanChars (p : List Char) : List Char :=
  match p with
  | [] => ['.']
  | c :: _ =>
    let rooted := c == '/'
    let body := joinComps (cleanLoop rooted [] (splitSlash p))
    if rooted then '/' :: body
    else if body = [] then ['.'] else body

/-- Model of Go `path/filepath.Clean` on `String`. -/
def filepathClean (s : String) : String := ⟨cleanChars s.data⟩

/-- Model of Go `path/filepath.Join` for two arguments: empty elements are
skipped and the slash-joined remainder is cleaned; joining two empty
strings yields the empty string. -/
def filepathJoin (d t : String) : String :=
  if d = "" then
    if t = "" then "" else filepathClean t
  else filepathClean ⟨d.data ++ '/' :: t.data⟩

/-- Model of Go `strings.HasPrefix s pre`: plain string prefix, with no
directory-separator awareness. -/
def hasPrefixStr (s pre : String) : Bool := pre.data.isPrefixOf s.data

/-- Model of Go `strings.HasSuffix s suf`. -/
def hasSuffixStr (s suf : String) : Bool := suf.data.isSuffixOf s.data

/-- Embedding of `sanitizeArchivePath` (imageHandler.go:107-114): join the
extraction root `d` with the entry name `t`, accept the joined path when it
has the cleaned root as a string prefix, and report the tainted-filepath
error otherwise. -/
def sanitizeArchivePath (d t : String) : Except String String :=
  let v := filepathJoin d t
  if hasPrefixStr v (filepathClean d) then .ok v
  else .error ("content filepath is tainted: " ++ t)

/-- JSON values as produced by Go `encoding/json.Unmarshal` into
`interface{}`: null, booleans, numbers, strings, arrays and objects.
Numbers are modelled as integers; the program only ever inspects whether a
value is a string, an array or an object. -/
inductive JValue where
  | jnull : JValue
  | jbool (b : Bool) : JValue
  | jnum (n : Int) : JValue
  | jstr (s : String) : JValue
  | jarr (xs : List JValue) : JValue
  | jobj (fields : List (String × JValue)) : JValue

/-- A tar stream as consumed by `extractTar` (imageHandler.go:116-181): a
sequence of entries, each a directory header, a regular file, or an entry
of any other type flag (ignored by the extractor).  A regular file's
content is recorded together with its byte size as one of: opaque bytes
that parse neither as a tar stream nor as JSON (`regRaw`), bytes that
parse as a nested tar stream (`regTar`, the empty stream standing for a
file whose tar reader immediately reports end of archive), or bytes that
parse as a JSON document (`regJson`).  The tail of each constructor is the
rest of the stream, so a `Tar` is a cons-list of entries. -/
inductive Tar where
  | nil : Tar
  | dir (name : String) (rest : Tar) : Tar
  | regRaw (name : String) (size : Nat) (rest : Tar) : Tar
  | regTar (name : String) (size : Nat) (inner : Tar) (rest : Tar) : Tar
  | regJson (name : String) (size : Nat) (v : JValue) (rest : Tar) : Tar
  | other (name : String) (rest : Tar) : Tar

/-- Concatenation of two tar streams: the entries of `t` followed by the
entries of `u`. -/
def Tar.append : Tar → Tar → Tar
  | .nil, u => u
  | .dir n r, u => .dir n (r.append u)
  | .regRaw n s r, u => .regRaw n s (r.append u)
  | .regTar n s i r, u => .regTar n s i (r.append u)
  | .regJson n s v r, u => .regJson n s v (r.append u)
  | .other n r, u => .other n (r.append u)

/-- The rest of a tar stream after its first entry. -/
def Tar.tail : Tar → Tar
  | .nil => .nil
  | .dir _ r => r
  | .regRaw _ _ r => r
  | .regTar _ _ _ r => r
  | .regJson _ _ _ r => r
  | .other _ r => r

/-- Name of the first entry of a tar stream, when there is one. -/
def Tar.headName : Tar → Option String
  | .nil => none
  | .dir n _ => some n
  | .regRaw n _ _ => some n
  | .regTar n _ _ _ => some n
  | .regJson n _ _ _ => some n
  | .other n _ => some n

/-- Whether the first entry of a tar stream is a regular file
(`tar.TypeReg`). -/
def Tar.headIsReg : Tar → Bool
  | .regRaw _ _ _ => true
  | .regTar _ _ _ _ => true
  | .regJson _ _ _ _ => true
  | _ => false

/-- Content byte size of the first entry of a tar stream (zero for
non-regular entries). -/
def Tar.headSize : Tar → Nat
  | .regRaw _ s _ => s
  | .regTar _ s _ _ => s
  | .regJson _ s _ _ => s
  | _ => 0

/-- Content of a file on disk, as left behind by extraction: the same
three content classes as regular tar entries. -/
inductive FileData where
  | raw (size : Nat) : FileData
  | tarData (size : Nat) (inner : Tar) : FileData
  | jsonData (size : Nat) (v : JValue) : FileData

/-- The on-disk state touched by extraction: the regular files written
(most recent write first; a lookup sees the latest content) and the
directories created or recorded by the directory branch. -/
structure FState where
  files : List (String × FileData)
  dirs : List String

/-- Reading a file from the modelled disk (`os.Open` + reading). -/
def fsGetFile (fs : FState) (p : String) : Option FileData := fs.files.lookup p

/-- Writing a file (`os.OpenFile(..., O_CREATE|O_RDWR, ...)` followed by
the content copy); the new content shadows any previous file at `p`. -/
def fsSetFile (fs : FState) (p : String) (d : FileData) : FState :=
  ⟨(p, d) :: fs.files, fs.dirs⟩

/-- The directory branch of the extractor: `os.Stat` followed by
`os.MkdirAll` when the target does not yet exist.  Pre-existing targets
are left untouched. -/
def fsMkdir (fs : FState) (p : String) : FState :=
  if fs.dirs.contains p || (fsGetFile fs p).isSome then fs
  else ⟨fs.files, p :: fs.dirs⟩

/-- The empty scratch directory: a freshly emptied extraction root. -/
def emptyFS : FState := ⟨[], []⟩

/-- The fatal extraction failures of `extractTar`: the `io.CopyN` byte
ceiling returning a non-EOF condition, and a nested layer file whose bytes
do not parse as a tar stream (`tar next failed`). -/
inductive ExErr where
  | copyCeiling : ExErr
  | tarParse : ExErr

/-- The per-file copy budget of `io.CopyN(f, tr, 2e+8)`
(imageHandler.go:165). -/
def copyCeiling : Nat := 200000000

/-- The reserved suffix denoting a nested image layer archive
(imageHandler.go:171). -/
def layerSuffix : String := "layer.tar"

/-- Embedding of `extractTar` (imageHandler.go:116-181).  The stream is
walked entry by entry.  An entry whose name fails `sanitizeArchivePath`
against the extraction root is skipped.  A directory entry is materialized
with `fsMkdir` and appended to the directory inventory.  A regular entry
is written to its sanitized target; `io.CopyN` with the `copyCeiling`
budget returns a clean EOF only when the content is strictly below the
ceiling, and any other outcome is the fatal `tar io.Copy()` error.  When
the written target ends in `layerSuffix` the file just written is opened
again as a tar stream and extracted recursively into the same root (the
read-back of the target returns exactly the content written, so the model
recurses on the entry's own parsed content; content that does not parse as
a tar stream is the fatal `tar next failed` error), and the nested
inventories are spliced into the caller's; otherwise the target is
appended to the file inventory.  Entries of other type flags are ignored.
A fatal error aborts the walk, returning the disk state reached so far. -/
def extractTar (root : String) (t : Tar) (fs : FState) :
    Except ExErr (List String × List String) × FState :=
  match t with
  | .nil => (.ok ([], []), fs)
  | .dir n r =>
    match sanitizeArchivePath root n with
    | .error _ => extractTar root r fs
    | .ok tgt =>
      match extractTar root r (fsMkdir fs tgt) with
      | (.ok (f, d), fs') => (.ok (f, tgt :: d), fs')
      | (.error e, fs') => (.error e, fs')
  | .regRaw n size r =>
    match sanitizeArchivePath root n with
    | .error _ => extractTar root r fs
    | .ok tgt =>
      let fs1 := fsSetFile fs tgt (.raw size)
      if copyCeiling ≤ size then (.error .copyCeiling, fs1)
      else if hasSuffixStr tgt layerSuffix then (.error .tarParse, fs1)
      else
        match extractTar root r fs1 with
        | (.ok (f, d), fs') => (.ok (tgt :: f, d), fs')
        | (.error e, fs') => (.error e, fs')
  | .regTar n size i r =>
    match sanitizeArchivePath root n with
    | .error _ => extractTar root r fs
    | .ok tgt =>
      let fs1 := fsSetFile fs tgt (.tarData size i)
      if copyCeiling ≤ size then (.error .copyCeiling, fs1)
      else if hasSuffixStr tgt layerSuffix then
        match extractTar root i fs1 with
        | (.ok (fi, di), fs2) =>
          match extractTar root r fs2 with
          | (.ok (f, d), fs') => (.ok (fi ++ f, di ++ d), fs')
          | (.error e, fs') => (.error e, fs')
        | (.error e, fs2) => (.error e, fs2)
      else
        match extractTar root r fs1 with
        | (.ok (f, d), fs') => (.ok (tgt :: f, d), fs')
        | (.error e, fs') => (.error e, fs')
  | .regJson n size v r =>
    match sanitizeArchivePath root n with
    | .error _ => extractTar root r fs
    | .ok tgt =>
      let fs1 := fsSetFile fs tgt (.jsonData size v)
      if copyCeiling ≤ size then (.error .copyCeiling, fs1)
      else if hasSuffixStr tgt layerSuffix then (.error .tarParse, fs1)
      else
        match extractTar root r fs1 with
        | (.ok (f, d), fs') => (.ok (tgt :: f, d), fs')
        | (.error e, fs') => (.error e, fs')
  | .other _ r => extractTar root r fs

/-- The returned inventories of `extractTar`, as a function of the archive
and the root alone (the disk state does not feed back into them; proved in
`extractTar_fst`). -/
def extractInv (root : String) : Tar → Except ExErr (List String × List String)
  | .nil => .ok ([], [])
  | .dir n r =>
    match sanitizeArchivePath root n with
    | .error _ => extractInv root r
    | .ok tgt =>
      match extractInv root r with
      | .ok (f, d) => .ok (f, tgt :: d)
      | .error e => .error e
  | .regRaw n size r =>
    match sanitizeArchivePath root n with
    | .error _ => extractInv root r
    | .ok tgt =>
      if copyCeiling ≤ size then .error .copyCeiling
      else if hasSuffixStr tgt layerSuffix then .error .tarParse
      else
        match extractInv root r with
        | .ok (f, d) => .ok (tgt :: f, d)
        | .error e => .error e
  | .regTar n size i r =>
    match sanitizeArchivePath root n with
    | .error _ => extractInv root r
    | .ok tgt =>
      if copyCeiling ≤ size then .error .copyCeiling
      else if hasSuffixStr tgt layerSuffix then
        match extractInv root i with
        | .ok (fi, di) =>
          match extractInv root r with
          | .ok (f, d) => .ok (fi ++ f, di ++ d)
          | .error e => .error e
        | .error e => .error e
      else
        match extractInv root r with
        | .ok (f, d) => .ok (tgt :: f, d)
        | .error e => .error e
  | .regJson n size _ r =>
    match sanitizeArchivePath root n with
    | .error _ => extractInv root r
    | .ok tgt =>
      if copyCeiling ≤ size then .error .copyCeiling
      else if hasSuffixStr tgt layerSuffix then .error .tarParse
      else
        match extractInv root r with
        | .ok (f, d) => .ok (tgt :: f, d)
        | .error e => .error e
  | .other _ r => extractInv root r

/-- Spec-side description of the returned file list, following the words
of the specification and of claim C2: walking the archive in entry order,
a successfully sanitized regular file contributes its own target path,
except that a target ending in the nested-layer suffix contributes instead
the recursively extracted files of its nested stream, spliced in place;
nothing is deduplicated or sorted. -/
def specFileList (root : String) : Tar → List String
  | .nil => []
  | .dir _ r => specFileList root r
  | .other _ r => specFileList root r
  | .regRaw n _ r =>
    match sanitizeArchivePath root n with
    | .error _ => specFileList root r
    | .ok tgt =>
      if hasSuffixStr tgt layerSuffix then specFileList root r
      else tgt :: specFileList root r
  | .regJson n _ _ r =>
    match sanitizeArchivePath root n with
    | .error _ => specFileList root r
    | .ok tgt =>
      if hasSuffixStr tgt layerSuffix then specFileList root r
      else tgt :: specFileList root r
  | .regTar n _ i r =>
    match sanitizeArchivePath root n with
    | .error _ => specFileList root r
    | .ok tgt =>
      if hasSuffixStr tgt layerSuffix then specFileList root i ++ specFileList root r
      else tgt :: specFileList root r

/-- Sequential composition of two extraction outcomes: an error on either
side wins (left first), and successful inventories are concatenated. -/
def combineInv (a b : Except ExErr (List String × List String)) :
    Except ExErr (List String × List String) :=
  match a with
  | .error e => .error e
  | .ok (f1, d1) =>
    match b with
    | .error e => .error e
    | .ok (f2, d2) => .ok (f1 ++ f2, d1 ++ d2)

/-- Sequential composition of a finished stateful run with a continuation
run started in the reached disk state. -/
def seqRun (a : Except ExErr (List String × List String) × FState)
    (k : FState → Except ExErr (List String × List String) × FState) :
    Except ExErr (List String × List String) × FState :=
  match a with
  | (.ok (f1, d1), fs1) =>
    match k fs1 with
    | (.ok (f2, d2), fs2) => (.ok (f1 ++ f2, d1 ++ d2), fs2)
    | (.error e, fs2) => (.error e, fs2)
  | (.error e, fs1) => (.error e, fs1)

/-- All paths recorded on the modelled disk: written files and created
directories. -/
def pathsOf (fs : FState) : List String := fs.files.map Prod.fst ++ fs.dirs

/-- Spec-side notion of a name containing a path-traversal sequence: one
of its slash-separated components is `".."`. -/
def specHasTraversal (t : String) : Bool := (splitSlash t.data).contains ['.', '.']

/-- Spec-side notion of a path lying within the extraction root: it is the
cleaned root itself or lives below it as a directory. -/
def specWithinRoot (root p : String) : Bool :=
  p == filepathClean root || hasPrefixStr p (filepathClean root ++ "/")

/-- A two-layer archive used to exercise the file-list characterization: a
nested layer holding one file, followed by a top-level file. -/
def c2Tar : Tar :=
  .regTar "a-layer.tar" 10 (.regRaw "inner" 1 .nil) (.regRaw "top" 2 .nil)

/-- A single-entry archive whose one regular file is a nested layer. -/
def c9Tar : Tar := .regTar "l-layer.tar" 4 (.regRaw "in" 1 .nil) .nil

/-- Embedding of `ImageInfo` (imageHandler.go:32-39): the image
description populated by extraction and manifest resolution. -/
structure ImageInfo where
  Name : String
  RepoTags : List String
  Arch : String
  OS : String
  FileList : List String
  DirList : List String

/-- The abort conditions of manifest resolution: a file that cannot be
opened or read, a `json.Unmarshal` failure, the cardinality checks
(`expecting one manifest.json!` / `expecting one config in manifest!`),
and a runtime type-assertion panic on a dynamic map value. -/
inductive RKind where
  | openFailed : RKind
  | unmarshalFailed : RKind
  | cardinality : RKind
  | typeAssertion : RKind

/-- A fatal manifest-resolution failure.  `log.Fatal` and panics abort the
process, so no caller observes the image record; the record as it stood at
the abort is carried here so theorems can state which fields had been
assigned when resolution failed. -/
structure RFail where
  kind : RKind
  imgAt : ImageInfo

/-- Element-wise reading of a JSON array as manifest records, as
`json.Unmarshal` into `[]map[string]interface{}` does: objects become
key/value maps, a `null` element becomes the nil map (no keys), anything
else is an unmarshal error. -/
def seqObjs : List JValue → Option (List (List (String × JValue)))
  | [] => some []
  | .jobj f :: rest => (seqObjs rest).map (f :: ·)
  | .jnull :: rest => (seqObjs rest).map ([] :: ·)
  | _ :: _ => none

/-- Go `json.Unmarshal` of a file's bytes into `[]map[string]interface{}`:
requires a JSON array of objects; the document `null` leaves the nil slice
(no records); any other content fails. -/
def jsonRecords : FileData → Option (List (List (String × JValue)))
  | .jsonData _ (.jarr xs) => seqObjs xs
  | .jsonData _ .jnull => some []
  | _ => none

/-- Go `json.Unmarshal` of a file's bytes into `map[string]interface{}`:
requires a JSON object; the document `null` leaves the nil map. -/
def jsonObject : FileData → Option (List (String × JValue))
  | .jsonData _ (.jobj f) => some f
  | .jsonData _ .jnull => some []
  | _ => none

/-- The `RepoTags` loop of `readManifest` (imageHandler.go:267-270): tags
are appended one by one; a non-string tag is a runtime type-assertion
panic, carrying the tags appended so far. -/
def appendRepoTags (img : ImageInfo) : List JValue → Except RFail ImageInfo
  | [] => .ok img
  | .jstr t :: rest => appendRepoTags { img with RepoTags := img.RepoTags ++ [t] } rest
  | _ :: _ => .error ⟨.typeAssertion, img⟩

/-- Embedding of `readManifest` (imageHandler.go:231-271): read and parse
the manifest file as a record array, require exactly one record, take its
`Config` string, read and parse the config file resolved against the
extraction root, assert the `architecture` and `os` strings (set in that
order), then append the `RepoTags` strings.  Every failure is fatal; the
carried record shows the fields assigned before the abort. -/
def readManifest (root : String) (fs : FState) (img : ImageInfo) (manifest : String) :
    Except RFail ImageInfo :=
  match fsGetFile fs manifest with
  | none => .error ⟨.openFailed, img⟩
  | some d =>
    match jsonRecords d with
    | none => .error ⟨.unmarshalFailed, img⟩
    | some manres =>
      match manres with
      | [man0] =>
        match man0.lookup "Config" with
        | some (.jstr cfg) =>
          match fsGetFile fs (filepathJoin root cfg) with
          | none => .error ⟨.openFailed, img⟩
          | some cd =>
            match jsonObject cd with
            | none => .error ⟨.unmarshalFailed, img⟩
            | some cfgres =>
              match cfgres.lookup "architecture" with
              | some (.jstr arch) =>
                match cfgres.lookup "os" with
                | some (.jstr osname) =>
                  match man0.lookup "RepoTags" with
                  | some (.jarr tags) =>
                    appendRepoTags { img with Arch := arch, OS := osname } tags
                  | _ => .error ⟨.typeAssertion, { img with Arch := arch, OS := osname }⟩
                | _ => .error ⟨.typeAssertion, { img with Arch := arch }⟩
              | _ => .error ⟨.typeAssertion, img⟩
        | _ => .error ⟨.typeAssertion, img⟩
      | _ => .error ⟨.cardinality, img⟩

/-- One-position match of the restricted regular-expression dialect this
program feeds to `regexp.MustCompile`: each pattern character matches
itself literally except `'.'`, which matches any character other than a
newline.  (The patterns the program builds — an extraction-root path
joined with `manifest.json` — contain no other metacharacters.) -/
def reMatchHere : List Char → List Char → Bool
  | [], _ => true
  | _ :: _, [] => false
  | pc :: ps, c :: cs =>
    (if pc = '.' then c != '\n' else pc == c) && reMatchHere ps cs

/-- Go `regexp.Match` on the dialect above: unanchored search trying every
start position. -/
def reSearch (p : List Char) : List Char → Bool
  | [] => reMatchHere p []
  | c :: cs => reMatchHere p (c :: cs) || reSearch p cs

/-- Embedding of `checkForSpec` (imageHandler.go:209-218): keep, in input
order, the file names in which the pattern matches somewhere. -/
def checkForSpec (spec : String) (fl : List String) : List String :=
  match fl with
  | [] => []
  | name :: rest =>
    if reSearch spec.data name.data then name :: checkForSpec spec rest
    else checkForSpec spec rest

/-- Embedding of `getImageInfo` (imageHandler.go:273-282): search the file
inventory with the pattern built from the extraction root and
`manifest.json`; anything but exactly one match is the fatal
`expecting one manifest.json!`; the single match is resolved. -/
def getImageInfo (root : String) (fs : FState) (img : ImageInfo) :
    Except RFail ImageInfo :=
  match checkForSpec (filepathJoin root "manifest.json") img.FileList with
  | [m] => readManifest root fs img m
  | _ => .error ⟨.cardinality, img⟩

/-- Relational reading of one matched character, used to state what the
matcher decides: a literal pattern character matches itself, `'.'` matches
anything but a newline. -/
def dotCharMatch (pc c : Char) : Prop := if pc = '.' then c ≠ '\n' else pc = c

/-- Claim-side one-position matcher in which `'.'` matches any character
whatsoever — the wording of the claim — for contrast with the Go
semantics. -/
def claimMatchHere : List Char → List Char → Bool
  | [], _ => true
  | _ :: _, [] => false
  | pc :: ps, c :: cs => (pc == '.' || pc == c) && claimMatchHere ps cs

/-- Unanchored search for the claim-side matcher. -/
def claimSearch (p : List Char) : List Char → Bool
  | [] => claimMatchHere p []
  | c :: cs => claimMatchHere p (c :: cs) || claimSearch p cs

/-- A well-formed single-layer image: one `manifest.json` with one record,
the referenced config file, and one data file `etc/hostname`. -/
def c7Tar : Tar :=
  .regJson "manifest.json" 120
    (.jarr [.jobj [("Config", .jstr "config.json"),
                   ("RepoTags", .jarr [.jstr "example:latest"])]])
    (.regJson "config.json" 80
      (.jobj [("architecture", .jstr "amd64"), ("os", .jstr "linux")])
      (.regRaw "etc/hostname" 8 .nil))

/-- A disk state holding a well-formed manifest file `m` and the config
file it references. -/
def c5fs : FState :=
  ⟨[("m", .jsonData 1 (.jarr [.jobj [("Config", .jstr "c"),
                                     ("RepoTags", .jarr [.jstr "t:1"])]])),
    ("/r/c", .jsonData 1 (.jobj [("architecture", .jstr "arm64"),
                                 ("os", .jstr "linux")]))], []⟩

example : filepathClean "/tmp/x/a/../b" = "/tmp/x/b" := by decide
example : filepathClean "a/.." = "." := by decide
example : filepathClean "/.." = "/" := by decide
example : filepathClean "../a" = "../a" := by decide
example : filepathJoin "/tmp/x" "../x2/f" = "/tmp/x2/f" := by decide
example : sanitizeArchivePath "/tmp/x" "../../etc/passwd" =
    .error "content filepath is tainted: ../../etc/passwd" := rfl
example : sanitizeArchivePath "/tmp/x" "a/../b" = .ok "/tmp/x/b" := rfl
example : sanitizeArchivePath "/tmp/x" "../x2/f" = .ok "/tmp/x2/f" := rfl

theorem extractTar_fst (root : String) (t : Tar) :
    ∀ fs : FState, (extractTar root t fs).1 = extractInv root t := by
  induction t with
  | nil => intro fs; rfl
  | dir n r ih =>
    intro fs
    simp only [extractTar, extractInv]
    cases sanitizeArchivePath root n with
    | error e => exact ih fs
    | ok tgt =>
      simp only []
      rw [← ih (fsMkdir fs tgt)]
      cases h : extractTar root r (fsMkdir fs tgt) with
      | mk res fs' => cases res with
        | ok p => cases p; simp [h]
        | error e => simp [h]
  | regRaw n size r ih =>
    intro fs
    simp only [extractTar, extractInv]
    cases sanitizeArchivePath root n with
    | error e => exact ih fs
    | ok tgt =>
      simp only []
      by_cases hc : copyCeiling ≤ size
      · simp [hc]
      · simp only [hc, if_false]
        by_cases hs : hasSuffixStr tgt layerSuffix
        · simp [hs]
        · simp only [hs, if_false]
          rw [← ih (fsSetFile fs tgt (.raw size))]
          cases h : extractTar root r (fsSetFile fs tgt (.raw size)) with
          | mk res fs' => cases res with
            | ok p => cases p; simp [h]
            | error e => simp [h]
  | regTar n size i r ihi ihr =>
    intro fs
    simp only [extractTar, extractInv]
    cases sanitizeArchivePath root n with
    | error e => exact ihr fs
    | ok tgt =>
      simp only []
      by_cases hc : copyCeiling ≤ size
      · simp [hc]
      · simp only [hc, if_false]
        by_cases hs : hasSuffixStr tgt layerSuffix
        · simp only [hs, if_true]
          rw [← ihi (fsSetFile fs tgt (.tarData size i))]
          cases hi : extractTar root i (fsSetFile fs tgt (.tarData size i)) with
          | mk resi fs2 => cases resi with
            | ok pi =>
              cases pi
              simp only [hi]
              rw [← ihr fs2]
              cases h : extractTar root r fs2 with
              | mk res fs' => cases res with
                | ok p => cases p; simp [h]
                | error e => simp [h]
            | error e => simp [hi]
        · simp only [hs, if_false]
          rw [← ihr (fsSetFile fs tgt (.tarData size i))]
          cases h : extractTar root r (fsSetFile fs tgt (.tarData size i)) with
          | mk res fs' => cases res with
            | ok p => cases p; simp [h]
            | error e => simp [h]
  | regJson n size v r ih =>
    intro fs
    simp only [extractTar, extractInv]
    cases sanitizeArchivePath root n with
    | error e => exact ih fs
    | ok tgt =>
      simp only []
      by_cases hc : copyCeiling ≤ size
      · simp [hc]
      · simp only [hc, if_false]
        by_cases hs : hasSuffixStr tgt layerSuffix
        · simp [hs]
        · simp only [hs, if_false]
          rw [← ih (fsSetFile fs tgt (.jsonData size v))]
          cases h : extractTar root r (fsSetFile fs tgt (.jsonData size v)) with
          | mk res fs' => cases res with
            | ok p => cases p; simp [h]
            | error e => simp [h]
  | other n r ih => intro fs; exact ih fs

theorem extractInv_files (root : String) (t : Tar) :
    ∀ fl dl, extractInv root t = .ok (fl, dl) → fl = specFileList root t := by
  induction t with
  | nil =>
    intro fl dl h
    simp only [extractInv] at h
    cases h; rfl
  | dir n r ih =>
    intro fl dl h
    simp only [extractInv] at h
    simp only [specFileList]
    split at h
    next e heq => exact ih fl dl h
    next tgt heq =>
      split at h
      next f d heq2 =>
        injection h with h1
        injection h1 with hf hd
        subst hf
        exact ih f d heq2
      next e heq2 => cases h
  | regRaw n size r ih =>
    intro fl dl h
    simp only [extractInv] at h
    simp only [specFileList]
    split at h
    next e heq => exact ih fl dl h
    next tgt heq =>
      split at h
      next hc => cases h
      next hc =>
        split at h
        next hs => cases h
        next hs =>
          rw [if_neg hs]
          split at h
          next f d heq2 =>
            injection h with h1
            injection h1 with hf hd
            subst hf
            exact congrArg (tgt :: ·) (ih f d heq2)
          next e heq2 => cases h
  | regTar n size i r ihi ihr =>
    intro fl dl h
    simp only [extractInv] at h
    simp only [specFileList]
    split at h
    next e heq => exact ihr fl dl h
    next tgt heq =>
      split at h
      next hc => cases h
      next hc =>
        split at h
        next hs =>
          rw [if_pos hs]
          split at h
          next fi di heqi =>
            split at h
            next f d heqr =>
              injection h with h1
              injection h1 with hf hd
              subst hf
              rw [ihi fi di heqi, ihr f d heqr]
            next e heqr => cases h
          next e heqi => cases h
        next hs =>
          rw [if_neg hs]
          split at h
          next f d heq2 =>
            injection h with h1
            injection h1 with hf hd
            subst hf
            exact congrArg (tgt :: ·) (ihr f d heq2)
          next e heq2 => cases h
  | regJson n size v r ih =>
    intro fl dl h
    simp only [extractInv] at h
    simp only [specFileList]
    split at h
    next e heq => exact ih fl dl h
    next tgt heq =>
      split at h
      next hc => cases h
      next hc =>
        split at h
        next hs => cases h
        next hs =>
          rw [if_neg hs]
          split at h
          next f d heq2 =>
            injection h with h1
            injection h1 with hf hd
            subst hf
            exact congrArg (tgt :: ·) (ih f d heq2)
          next e heq2 => cases h
  | other n r ih => intro fl dl h; exact ih fl dl h

theorem extractInv_append (root : String) (pre : Tar) :
    ∀ u, extractInv root (pre.append u) =
      combineInv (extractInv root pre) (extractInv root u) := by
  induction pre with
  | nil =>
    intro u
    simp only [Tar.append, extractInv, combineInv]
    cases h : extractInv root u with
    | ok p => simp
    | error e => simp
  | dir n r ih =>
    intro u
    simp only [Tar.append, extractInv, ih, combineInv]
    cases hsan : sanitizeArchivePath root n with
    | error e =>
      cases hr : extractInv root r <;> cases hu : extractInv root u <;> simp
    | ok tgt =>
      cases hr : extractInv root r <;> cases hu : extractInv root u <;> simp
  | regRaw n size r ih =>
    intro u
    simp only [Tar.append, extractInv, ih, combineInv]
    cases hsan : sanitizeArchivePath root n with
    | error e =>
      cases hr : extractInv root r <;> cases hu : extractInv root u <;> simp
    | ok tgt =>
      by_cases hc : copyCeiling ≤ size
      · simp [hc]
      · by_cases hs : hasSuffixStr tgt layerSuffix
        · simp [hc, hs]
        · cases hr : extractInv root r <;> cases hu : extractInv root u <;>
            simp [hc, hs]
  | regTar n size i r ihi ihr =>
    intro u
    simp only [Tar.append, extractInv, ihr, combineInv]
    cases hsan : sanitizeArchivePath root n with
    | error e =>
      cases hr : extractInv root r <;> cases hu : extractInv root u <;> simp
    | ok tgt =>
      by_cases hc : copyCeiling ≤ size
      · simp [hc]
      · by_cases hs : hasSuffixStr tgt layerSuffix
        · cases hi : extractInv root i with
          | ok pi =>
            cases hr : extractInv root r <;> cases hu : extractInv root u <;>
              simp [hc, hs]
          | error e => simp [hc, hs]
        · cases hr : extractInv root r <;> cases hu : extractInv root u <;>
            simp [hc, hs]
  | regJson n size v r ih =>
    intro u
    simp only [Tar.append, extractInv, ih, combineInv]
    cases hsan : sanitizeArchivePath root n with
    | error e =>
      cases hr : extractInv root r <;> cases hu : extractInv root u <;> simp
    | ok tgt =>
      by_cases hc : copyCeiling ≤ size
      · simp [hc]
      · by_cases hs : hasSuffixStr tgt layerSuffix
        · simp [hc, hs]
        · cases hr : extractInv root r <;> cases hu : extractInv root u <;>
            simp [hc, hs]
  | other n r ih =>
    intro u
    simp only [Tar.append, extractInv, ih]

theorem extractTar_append (root : String) (pre : Tar) :
    ∀ u fs, extractTar root (pre.append u) fs =
      seqRun (extractTar root pre fs) (extractTar root u) := by
  induction pre with
  | nil =>
    intro u fs
    simp only [Tar.append, extractTar, seqRun]
    cases h : extractTar root u fs with
    | mk res fs' =>
      cases res with
      | ok p => simp [h]
      | error e => simp [h]
  | dir n r ih =>
    intro u fs
    simp only [Tar.append, extractTar, ih, seqRun]
    cases hsan : sanitizeArchivePath root n with
    | error e =>
      cases h1 : extractTar root r fs with
      | mk res1 fs1 =>
        cases res1 with
        | ok p =>
          cases h2 : extractTar root u fs1 with
          | mk res2 fs2 => cases res2 with
            | ok q => simp [h1, h2]
            | error e2 => simp [h1, h2]
        | error e1 => simp [h1]
    | ok tgt =>
      cases h1 : extractTar root r (fsMkdir fs tgt) with
      | mk res1 fs1 =>
        cases res1 with
        | ok p =>
          cases h2 : extractTar root u fs1 with
          | mk res2 fs2 => cases res2 with
            | ok q => simp [h1, h2]
            | error e2 => simp [h1, h2]
        | error e1 => simp [h1]
  | regRaw n size r ih =>
    intro u fs
    simp only [Tar.append, extractTar, ih, seqRun]
    cases hsan : sanitizeArchivePath root n with
    | error e =>
      cases h1 : extractTar root r fs with
      | mk res1 fs1 =>
        cases res1 with
        | ok p =>
          cases h2 : extractTar root u fs1 with
          | mk res2 fs2 => cases res2 with
            | ok q => simp [h1, h2]
            | error e2 => simp [h1, h2]
        | error e1 => simp [h1]
    | ok tgt =>
      by_cases hc : copyCeiling ≤ size
      · simp [hc]
      · by_cases hs : hasSuffixStr tgt layerSuffix
        · simp [hc, hs]
        · cases h1 : extractTar root r (fsSetFile fs tgt (.raw size)) with
          | mk res1 fs1 =>
            cases res1 with
            | ok p =>
              cases h2 : extractTar root u fs1 with
              | mk res2 fs2 => cases res2 with
                | ok q => simp [hc, hs, h1, h2]
                | error e2 => simp [hc, hs, h1, h2]
            | error e1 => simp [hc, hs, h1]
  | regTar n size i r ihi ihr =>
    intro u fs
    simp only [Tar.append, extractTar, ihr, seqRun]
    cases hsan : sanitizeArchivePath root n with
    | error e =>
      cases h1 : extractTar root r fs with
      | mk res1 fs1 =>
        cases res1 with
        | ok p =>
          cases h2 : extractTar root u fs1 with
          | mk res2 fs2 => cases res2 with
            | ok q => simp [h1, h2]
            | error e2 => simp [h1, h2]
        | error e1 => simp [h1]
    | ok tgt =>
      by_cases hc : copyCeiling ≤ size
      · simp [hc]
      · by_cases hs : hasSuffixStr tgt layerSuffix
        · cases hi : extractTar root i (fsSetFile fs tgt (.tarData size i)) with
          | mk resi fsi =>
            cases resi with
            | ok pi =>
              cases h1 : extractTar root r fsi with
              | mk res1 fs1 =>
                cases res1 with
                | ok p =>
                  cases h2 : extractTar root u fs1 with
                  | mk res2 fs2 => cases res2 with
                    | ok q => simp [hc, hs, hi, h1, h2]
                    | error e2 => simp [hc, hs, hi, h1, h2]
                | error e1 => simp [hc, hs, hi, h1]
            | error ei => simp [hc, hs, hi]
        · cases h1 : extractTar root r (fsSetFile fs tgt (.tarData size i)) with
          | mk res1 fs1 =>
            cases res1 with
            | ok p =>
              cases h2 : extractTar root u fs1 with
              | mk res2 fs2 => cases res2 with
                | ok q => simp [hc, hs, h1, h2]
                | error e2 => simp [hc, hs, h1, h2]
            | error e1 => simp [hc, hs, h1]
  | regJson n size v r ih =>
    intro u fs
    simp only [Tar.append, extractTar, ih, seqRun]
    cases hsan : sanitizeArchivePath root n with
    | error e =>
      cases h1 : extractTar root r fs with
      | mk res1 fs1 =>
        cases res1 with
        | ok p =>
          cases h2 : extractTar root u fs1 with
          | mk res2 fs2 => cases res2 with
            | ok q => simp [h1, h2]
            | error e2 => simp [h1, h2]
        | error e1 => simp [h1]
    | ok tgt =>
      by_cases hc : copyCeiling ≤ size
      · simp [hc]
      · by_cases hs : hasSuffixStr tgt layerSuffix
        · simp [hc, hs]
        · cases h1 : extractTar root r (fsSetFile fs tgt (.jsonData size v)) with
          | mk res1 fs1 =>
            cases res1 with
            | ok p =>
              cases h2 : extractTar root u fs1 with
              | mk res2 fs2 => cases res2 with
                | ok q => simp [hc, hs, h1, h2]
                | error e2 => simp [hc, hs, h1, h2]
            | error e1 => simp [hc, hs, h1]
  | other n r ih =>
    intro u fs
    simp only [Tar.append, extractTar, ih]

theorem sanitize_ok_elim (d t v : String) (h : sanitizeArchivePath d t = .ok v) :
    v = filepathJoin d t ∧ hasPrefixStr v (filepathClean d) = true := by
  simp only [sanitizeArchivePath] at h
  split at h
  next hpre => cases h; exact ⟨rfl, hpre⟩
  next hpre => cases h

theorem sanitize_error_of_not_prefix (d t : String)
    (h : hasPrefixStr (filepathJoin d t) (filepathClean d) = false) :
    sanitizeArchivePath d t = .error ("content filepath is tainted: " ++ t) := by
  simp only [sanitizeArchivePath]
  split
  next hpre => rw [h] at hpre; cases hpre
  next hpre => rfl

/-- Skipping lemma: an archive whose first entry fails sanitization
extracts exactly like the archive without that entry, from any disk
state. -/
theorem extractTar_skip_head (root : String) (t : Tar) (n msg : String)
    (hn : t.headName = some n) (hsan : sanitizeArchivePath root n = .error msg) :
    ∀ fs, extractTar root t fs = extractTar root t.tail fs := by
  cases t with
  | nil => cases hn
  | dir m r =>
    simp only [Tar.headName] at hn
    injection hn with hm
    subst hm
    intro fs
    simp only [extractTar, Tar.tail, hsan]
  | regRaw m size r =>
    simp only [Tar.headName] at hn
    injection hn with hm
    subst hm
    intro fs
    simp only [extractTar, Tar.tail, hsan]
  | regTar m size i r =>
    simp only [Tar.headName] at hn
    injection hn with hm
    subst hm
    intro fs
    simp only [extractTar, Tar.tail, hsan]
  | regJson m size v r =>
    simp only [Tar.headName] at hn
    injection hn with hm
    subst hm
    intro fs
    simp only [extractTar, Tar.tail, hsan]
  | other m r =>
    intro fs
    simp only [extractTar, Tar.tail]

theorem specFileList_no_suffix (root : String) (t : Tar) :
    ∀ p ∈ specFileList root t, hasSuffixStr p layerSuffix = false := by
  induction t with
  | nil => intro p hp; cases hp
  | dir n r ih => intro p hp; exact ih p hp
  | regRaw n size r ih =>
    intro p hp
    simp only [specFileList] at hp
    split at hp
    next e heq => exact ih p hp
    next tgt heq =>
      split at hp
      next hs => exact ih p hp
      next hs =>
        cases hp with
        | head => simpa using hs
        | tail _ hmem => exact ih p hmem
  | regTar n size i r ihi ihr =>
    intro p hp
    simp only [specFileList] at hp
    split at hp
    next e heq => exact ihr p hp
    next tgt heq =>
      split at hp
      next hs =>
        rcases List.mem_append.mp hp with hmem | hmem
        · exact ihi p hmem
        · exact ihr p hmem
      next hs =>
        cases hp with
        | head => simpa using hs
        | tail _ hmem => exact ihr p hmem
  | regJson n size v r ih =>
    intro p hp
    simp only [specFileList] at hp
    split at hp
    next e heq => exact ih p hp
    next tgt heq =>
      split at hp
      next hs => exact ih p hp
      next hs =>
        cases hp with
        | head => simpa using hs
        | tail _ hmem => exact ih p hmem
  | other n r ih => intro p hp; exact ih p hp

theorem fsGetFile_fsMkdir (fs : FState) (q p : String) :
    fsGetFile (fsMkdir fs q) p = fsGetFile fs p := by
  simp only [fsMkdir]
  split <;> rfl

theorem fsGetFile_fsSetFile_isSome (fs : FState) (q : String) (d : FileData)
    (p : String) (h : (fsGetFile fs p).isSome = true) :
    (fsGetFile (fsSetFile fs q d) p).isSome = true := by
  simp only [fsGetFile, fsSetFile, List.lookup] at *
  cases hpq : p == q with
  | true => rfl
  | false => exact h

theorem fsGetFile_fsSetFile_self (fs : FState) (q : String) (d : FileData) :
    fsGetFile (fsSetFile fs q d) q = some d := by
  simp only [fsGetFile, fsSetFile, List.lookup, beq_self_eq_true]

/-- Files already on disk survive extraction: extraction only creates or
overwrites files, it never removes one. -/
theorem extractTar_file_mono (root : String) (t : Tar) :
    ∀ fs res fs' p, extractTar root t fs = (res, fs') →
      (fsGetFile fs p).isSome = true → (fsGetFile fs' p).isSome = true := by
  induction t with
  | nil =>
    intro fs res fs' p h hp
    simp only [extractTar] at h
    cases h
    exact hp
  | dir n r ih =>
    intro fs res fs' p h hp
    simp only [extractTar] at h
    split at h
    next e heq => exact ih fs res fs' p h hp
    next tgt heq =>
      split at h
      next f d fs2 heq2 =>
        cases h
        exact ih _ _ _ p heq2 (by rw [fsGetFile_fsMkdir]; exact hp)
      next e fs2 heq2 =>
        cases h
        exact ih _ _ _ p heq2 (by rw [fsGetFile_fsMkdir]; exact hp)
  | regRaw n size r ih =>
    intro fs res fs' p h hp
    simp only [extractTar] at h
    split at h
    next e heq => exact ih fs res fs' p h hp
    next tgt heq =>
      split at h
      next hc =>
        cases h
        exact fsGetFile_fsSetFile_isSome fs tgt _ p hp
      next hc =>
        split at h
        next hs =>
          cases h
          exact fsGetFile_fsSetFile_isSome fs tgt _ p hp
        next hs =>
          split at h
          next f d fs2 heq2 =>
            cases h
            exact ih _ _ _ p heq2 (fsGetFile_fsSetFile_isSome fs tgt _ p hp)
          next e fs2 heq2 =>
            cases h
            exact ih _ _ _ p heq2 (fsGetFile_fsSetFile_isSome fs tgt _ p hp)
  | regTar n size i r ihi ihr =>
    intro fs res fs' p h hp
    simp only [extractTar] at h
    split at h
    next e heq => exact ihr fs res fs' p h hp
    next tgt heq =>
      split at h
      next hc =>
        cases h
        exact fsGetFile_fsSetFile_isSome fs tgt _ p hp
      next hc =>
        split at h
        next hs =>
          split at h
          next fi di fs2 heqi =>
            split at h
            next f d fs3 heqr =>
              cases h
              exact ihr _ _ _ p heqr
                (ihi _ _ _ p heqi (fsGetFile_fsSetFile_isSome fs tgt _ p hp))
            next e fs3 heqr =>
              cases h
              exact ihr _ _ _ p heqr
                (ihi _ _ _ p heqi (fsGetFile_fsSetFile_isSome fs tgt _ p hp))
          next e fs2 heqi =>
            cases h
            exact ihi _ _ _ p heqi (fsGetFile_fsSetFile_isSome fs tgt _ p hp)
        next hs =>
          split at h
          next f d fs2 heq2 =>
            cases h
            exact ihr _ _ _ p heq2 (fsGetFile_fsSetFile_isSome fs tgt _ p hp)
          next e fs2 heq2 =>
            cases h
            exact ihr _ _ _ p heq2 (fsGetFile_fsSetFile_isSome fs tgt _ p hp)
  | regJson n size v r ih =>
    intro fs res fs' p h hp
    simp only [extractTar] at h
    split at h
    next e heq => exact ih fs res fs' p h hp
    next tgt heq =>
      split at h
      next hc =>
        cases h
        exact fsGetFile_fsSetFile_isSome fs tgt _ p hp
      next hc =>
        split at h
        next hs =>
          cases h
          exact fsGetFile_fsSetFile_isSome fs tgt _ p hp
        next hs =>
          split at h
          next f d fs2 heq2 =>
            cases h
            exact ih _ _ _ p heq2 (fsGetFile_fsSetFile_isSome fs tgt _ p hp)
          next e fs2 heq2 =>
            cases h
            exact ih _ _ _ p heq2 (fsGetFile_fsSetFile_isSome fs tgt _ p hp)
  | other n r ih => intro fs res fs' p h hp; exact ih fs res fs' p h hp

theorem pathsOf_fsSetFile (fs : FState) (q : String) (d : FileData) (p : String)
    (h : p ∈ pathsOf (fsSetFile fs q d)) : p = q ∨ p ∈ pathsOf fs := by
  simp only [pathsOf, fsSetFile, List.map_cons, List.cons_append, List.mem_cons] at h
  simpa only [pathsOf] using h

theorem pathsOf_fsMkdir (fs : FState) (q p : String)
    (h : p ∈ pathsOf (fsMkdir fs q)) : p = q ∨ p ∈ pathsOf fs := by
  simp only [fsMkdir] at h
  split at h
  · exact Or.inr h
  · simp only [pathsOf, List.mem_append, List.mem_cons] at h ⊢
    rcases h with h | h | h
    · exact Or.inr (Or.inl h)
    · exact Or.inl h
    · exact Or.inr (Or.inr h)

/-- Every path recorded on disk by extraction either was there before or
passed sanitization, hence carries the cleaned root as a string prefix. -/
theorem extractTar_within (root : String) (t : Tar) :
    ∀ fs res fs', extractTar root t fs = (res, fs') →
      (∀ p ∈ pathsOf fs, hasPrefixStr p (filepathClean root) = true) →
      ∀ p ∈ pathsOf fs', hasPrefixStr p (filepathClean root) = true := by
  induction t with
  | nil =>
    intro fs res fs' h hfs
    simp only [extractTar] at h
    cases h
    exact hfs
  | dir n r ih =>
    intro fs res fs' h hfs
    simp only [extractTar] at h
    split at h
    next e heq => exact ih fs res fs' h hfs
    next tgt heq =>
      have htgt : hasPrefixStr tgt (filepathClean root) = true :=
        (sanitize_ok_elim root n tgt heq).2
      have hfs1 : ∀ p ∈ pathsOf (fsMkdir fs tgt),
          hasPrefixStr p (filepathClean root) = true := by
        intro p hp
        rcases pathsOf_fsMkdir fs tgt p hp with rfl | hp'
        · exact htgt
        · exact hfs p hp'
      split at h
      next f d fs2 heq2 => cases h; exact ih _ _ _ heq2 hfs1
      next e fs2 heq2 => cases h; exact ih _ _ _ heq2 hfs1
  | regRaw n size r ih =>
    intro fs res fs' h hfs
    simp only [extractTar] at h
    split at h
    next e heq => exact ih fs res fs' h hfs
    next tgt heq =>
      have htgt : hasPrefixStr tgt (filepathClean root) = true :=
        (sanitize_ok_elim root n tgt heq).2
      have hfs1 : ∀ p ∈ pathsOf (fsSetFile fs tgt (.raw size)),
          hasPrefixStr p (filepathClean root) = true := by
        intro p hp
        rcases pathsOf_fsSetFile fs tgt _ p hp with rfl | hp'
        · exact htgt
        · exact hfs p hp'
      split at h
      next hc => cases h; exact hfs1
      next hc =>
        split at h
        next hs => cases h; exact hfs1
        next hs =>
          split at h
          next f d fs2 heq2 => cases h; exact ih _ _ _ heq2 hfs1
          next e fs2 heq2 => cases h; exact ih _ _ _ heq2 hfs1
  | regTar n size i r ihi ihr =>
    intro fs res fs' h hfs
    simp only [extractTar] at h
    split at h
    next e heq => exact ihr fs res fs' h hfs
    next tgt heq =>
      have htgt : hasPrefixStr tgt (filepathClean root) = true :=
        (sanitize_ok_elim root n tgt heq).2
      have hfs1 : ∀ p ∈ pathsOf (fsSetFile fs tgt (.tarData size i)),
          hasPrefixStr p (filepathClean root) = true := by
        intro p hp
        rcases pathsOf_fsSetFile fs tgt _ p hp with rfl | hp'
        · exact htgt
        · exact hfs p hp'
      split at h
      next hc => cases h; exact hfs1
      next hc =>
        split at h
        next hs =>
          split at h
          next fi di fs2 heqi =>
            have hfs2 := ihi _ _ _ heqi hfs1
            split at h
            next f d fs3 heqr => cases h; exact ihr _ _ _ heqr hfs2
            next e fs3 heqr => cases h; exact ihr _ _ _ heqr hfs2
          next e fs2 heqi => cases h; exact ihi _ _ _ heqi hfs1
        next hs =>
          split at h
          next f d fs2 heq2 => cases h; exact ihr _ _ _ heq2 hfs1
          next e fs2 heq2 => cases h; exact ihr _ _ _ heq2 hfs1
  | regJson n size v r ih =>
    intro fs res fs' h hfs
    simp only [extractTar] at h
    split at h
    next e heq => exact ih fs res fs' h hfs
    next tgt heq =>
      have htgt : hasPrefixStr tgt (filepathClean root) = true :=
        (sanitize_ok_elim root n tgt heq).2
      have hfs1 : ∀ p ∈ pathsOf (fsSetFile fs tgt (.jsonData size v)),
          hasPrefixStr p (filepathClean root) = true := by
        intro p hp
        rcases pathsOf_fsSetFile fs tgt _ p hp with rfl | hp'
        · exact htgt
        · exact hfs p hp'
      split at h
      next hc => cases h; exact hfs1
      next hc =>
        split at h
        next hs => cases h; exact hfs1
        next hs =>
          split at h
          next f d fs2 heq2 => cases h; exact ih _ _ _ heq2 hfs1
          next e fs2 heq2 => cases h; exact ih _ _ _ heq2 hfs1
  | other n r ih => intro fs res fs' h hfs; exact ih fs res fs' h hfs

/-- C1 (amended): `sanitizeArchivePath` accepts exactly the entries whose
joined, cleaned target carries the cleaned extraction root as a string
prefix — an accepted target is always so prefixed, a target without the
prefix is always rejected with the tainted-filepath error — and every path
recorded on disk by an extraction started in an empty root carries that
string prefix.  (Rejection is not "every name containing a traversal
sequence", and the string prefix does not bound the written paths to the
root directory itself; see the counterexample.) -/
theorem sanitizeArchivePath_prefix_spec :
    (∀ d t v, sanitizeArchivePath d t = .ok v →
       v = filepathJoin d t ∧ hasPrefixStr v (filepathClean d) = true)
  ∧ (∀ d t, hasPrefixStr (filepathJoin d t) (filepathClean d) = false →
       sanitizeArchivePath d t = .error ("content filepath is tainted: " ++ t))
  ∧ (∀ (root : String) (t : Tar) (res : Except ExErr (List String × List String))
       (fs' : FState), extractTar root t emptyFS = (res, fs') →
       ∀ p ∈ pathsOf fs', hasPrefixStr p (filepathClean root) = true) := by
  refine ⟨sanitize_ok_elim, sanitize_error_of_not_prefix, ?_⟩
  intro root t res fs' h
  refine extractTar_within root t emptyFS res fs' h ?_
  intro p hp
  cases hp

/-- C1 counterexample: the entry name `"a/../b"` contains a traversal
sequence yet is accepted (its dot-dot cancels inside the root), and the
entry name `"../x2/f"` contains a traversal sequence, is accepted, and its
extraction writes the file `/tmp/x2/f`, which lies outside the extraction
root `/tmp/x` — the accepted sibling directory `/tmp/x2` merely shares the
root as a string prefix. -/
theorem sanitizeArchivePath_traversal_accepted :
    specHasTraversal "a/../b" = true ∧
    sanitizeArchivePath "/tmp/x" "a/../b" = .ok "/tmp/x/b" ∧
    specHasTraversal "../x2/f" = true ∧
    sanitizeArchivePath "/tmp/x" "../x2/f" = .ok "/tmp/x2/f" ∧
    specWithinRoot "/tmp/x" "/tmp/x2/f" = false ∧
    (extractTar "/tmp/x" (.regRaw "../x2/f" 3 .nil) emptyFS).2.files =
      [("/tmp/x2/f", .raw 3)] :=
  ⟨by decide, rfl, by decide, rfl, by decide, rfl⟩

theorem sanitizeArchivePath_prefix_spec_witness :
    hasPrefixStr "/r/a" (filepathClean "/r") = true := by
  have h := sanitizeArchivePath_prefix_spec.2.2 "/r" (.dir "a" .nil)
      (.ok ([], ["/r/a"])) ⟨[], ["/r/a"]⟩ rfl
  exact h "/r/a" (by simp [pathsOf])

/-- C2: on every successful extraction, the returned file list is exactly
the spec-side concatenation `specFileList`: archive entry order, nested
layer files spliced in place of the layer file, duplicates preserved, no
deduplication or sorting, and recursion exactly on targets ending in the
nested-layer suffix. -/
theorem extractTar_fileList_spec :
    ∀ (root : String) (t : Tar) (fs : FState) (fl dl : List String) (fs' : FState),
      extractTar root t fs = (.ok (fl, dl), fs') → fl = specFileList root t := by
  intro root t fs fl dl fs' h
  have h1 : (extractTar root t fs).1 = .ok (fl, dl) := by rw [h]
  rw [extractTar_fst] at h1
  exact extractInv_files root t fl dl h1

theorem extractTar_fileList_spec_witness :
    ["/r/inner", "/r/top"] = specFileList "/r" c2Tar :=
  extractTar_fileList_spec "/r" c2Tar emptyFS ["/r/inner", "/r/top"] []
    (extractTar "/r" c2Tar emptyFS).2 rfl

/-- C6: an entry whose name fails sanitization is skipped in place — the
archive with the entry extracts, from any starting disk state, exactly
like the archive without it, so no file or directory is created for the
entry, the pass is not aborted, and every other entry is still
processed. -/
theorem sanitize_failure_skips_entry :
    ∀ (root : String) (pre t : Tar) (fs : FState) (n msg : String),
      t.headName = some n → sanitizeArchivePath root n = .error msg →
      extractTar root (pre.append t) fs = extractTar root (pre.append t.tail) fs := by
  intro root pre t fs n msg hn hsan
  rw [extractTar_append, extractTar_append]
  exact congrArg (seqRun (extractTar root pre fs))
    (funext (extractTar_skip_head root t n msg hn hsan))

theorem sanitize_failure_skips_entry_witness :
    extractTar "/r" ((Tar.dir "d" .nil).append (.regRaw "../../e" 1 .nil)) emptyFS =
      extractTar "/r" ((Tar.dir "d" .nil).append ((Tar.regRaw "../../e" 1 .nil).tail))
        emptyFS :=
  sanitize_failure_skips_entry "/r" (.dir "d" .nil) (.regRaw "../../e" 1 .nil) emptyFS
    "../../e" ("content filepath is tainted: ../../e") rfl rfl

/-- C8: the inventories returned by extraction are a deterministic
function of the archive and the extraction root alone — any two runs, in
particular two runs each started in a freshly emptied extraction root,
return identical file and directory lists.  (Failures of the operating
system itself, e.g. permissions or a full disk, are outside the model.) -/
theorem extractTar_deterministic :
    ∀ (root : String) (t : Tar) (fs1 fs2 : FState),
      (extractTar root t fs1).1 = (extractTar root t fs2).1 := by
  intro root t fs1 fs2
  rw [extractTar_fst, extractTar_fst]

/-- C4: a reachable regular entry (its predecessors extract cleanly and
its own name sanitizes) whose content size reaches or exceeds the
`copyCeiling` budget makes extraction fail with the fatal copy error, so
no file list is returned at all and the partially written file is never
reported as extracted; an entry strictly below the ceiling copies to a
clean end-of-stream and extraction continues — an ordinary file is
prepended to the remaining entries' list, and a nested layer file proceeds
into the recursive extraction of its content composed with the remaining
entries. -/
theorem extract_copy_ceiling :
    (∀ (root : String) (pre t : Tar) (fs : FState) (n tgt : String)
       (x : List String × List String),
       t.headIsReg = true → t.headName = some n →
       sanitizeArchivePath root n = .ok tgt → copyCeiling ≤ t.headSize →
       extractInv root pre = .ok x →
       (extractTar root (pre.append t) fs).1 = .error .copyCeiling)
  ∧ (∀ (root : String) (t : Tar) (fs : FState) (n tgt : String),
       t.headIsReg = true → t.headName = some n →
       sanitizeArchivePath root n = .ok tgt → t.headSize < copyCeiling →
       hasSuffixStr tgt layerSuffix = false →
       (extractTar root t fs).1 =
         match (extractTar root t.tail fs).1 with
         | .ok (f, d) => .ok (tgt :: f, d)
         | .error e => .error e)
  ∧ (∀ (root n : String) (size : Nat) (i r : Tar) (fs : FState) (tgt : String),
       sanitizeArchivePath root n = .ok tgt → size < copyCeiling →
       hasSuffixStr tgt layerSuffix = true →
       (extractTar root (.regTar n size i r) fs).1 =
         combineInv (extractInv root i) (extractInv root r)) := by
  refine ⟨?_, ?_, ?_⟩
  · intro root pre t fs n tgt x hreg hname hsan hceil hpre
    rw [extractTar_fst, extractInv_append, hpre]
    obtain ⟨f1, d1⟩ := x
    have ht : extractInv root t = .error .copyCeiling := by
      cases t with
      | nil => simp [Tar.headIsReg] at hreg
      | dir m r => simp [Tar.headIsReg] at hreg
      | other m r => simp [Tar.headIsReg] at hreg
      | regRaw m size r =>
        simp only [Tar.headName] at hname
        injection hname with hm
        subst hm
        simp only [Tar.headSize] at hceil
        simp only [extractInv, hsan, if_pos hceil]
      | regTar m size i r =>
        simp only [Tar.headName] at hname
        injection hname with hm
        subst hm
        simp only [Tar.headSize] at hceil
        simp only [extractInv, hsan, if_pos hceil]
      | regJson m size v r =>
        simp only [Tar.headName] at hname
        injection hname with hm
        subst hm
        simp only [Tar.headSize] at hceil
        simp only [extractInv, hsan, if_pos hceil]
    rw [ht]
    simp [combineInv]
  · intro root t fs n tgt hreg hname hsan hlt hs
    cases t with
    | nil => simp [Tar.headIsReg] at hreg
    | dir m r => simp [Tar.headIsReg] at hreg
    | other m r => simp [Tar.headIsReg] at hreg
    | regRaw m size r =>
      simp only [Tar.headName] at hname
      injection hname with hm
      subst hm
      simp only [Tar.headSize] at hlt
      have hnc : ¬ copyCeiling ≤ size := Nat.not_le.mpr hlt
      rw [extractTar_fst, Tar.tail, extractTar_fst]
      simp only [extractInv, hsan, if_neg hnc, hs, Bool.false_eq_true, if_false]
    | regTar m size i r =>
      simp only [Tar.headName] at hname
      injection hname with hm
      subst hm
      simp only [Tar.headSize] at hlt
      have hnc : ¬ copyCeiling ≤ size := Nat.not_le.mpr hlt
      rw [extractTar_fst, Tar.tail, extractTar_fst]
      simp only [extractInv, hsan, if_neg hnc, hs, Bool.false_eq_true, if_false]
    | regJson m size v r =>
      simp only [Tar.headName] at hname
      injection hname with hm
      subst hm
      simp only [Tar.headSize] at hlt
      have hnc : ¬ copyCeiling ≤ size := Nat.not_le.mpr hlt
      rw [extractTar_fst, Tar.tail, extractTar_fst]
      simp only [extractInv, hsan, if_neg hnc, hs, Bool.false_eq_true, if_false]
  · intro root n size i r fs tgt hsan hlt hs
    have hnc : ¬ copyCeiling ≤ size := Nat.not_le.mpr hlt
    rw [extractTar_fst]
    simp only [extractInv, hsan, if_neg hnc, hs, if_true]
    cases hi : extractInv root i with
    | ok p =>
      obtain ⟨fi, di⟩ := p
      cases hr : extractInv root r with
      | ok q => obtain ⟨f, d⟩ := q; simp [combineInv]
      | error e => simp [combineInv]
    | error e => simp [combineInv]

theorem extract_copy_ceiling_witness :
    (extractTar "/r" (Tar.nil.append (.regRaw "big" 200000000 .nil)) emptyFS).1 =
      .error .copyCeiling ∧
    (extractTar "/r" (.regRaw "small" 5 .nil) emptyFS).1 =
      (match (extractTar "/r" (Tar.regRaw "small" 5 .nil).tail emptyFS).1 with
       | .ok (f, d) => .ok ("/r/small" :: f, d)
       | .error e => .error e) :=
  ⟨extract_copy_ceiling.1 "/r" .nil (.regRaw "big" 200000000 .nil) emptyFS "big"
      "/r/big" ([], []) rfl rfl rfl (by decide) rfl,
   extract_copy_ceiling.2.1 "/r" (.regRaw "small" 5 .nil) emptyFS "small" "/r/small"
      rfl rfl rfl (by decide) rfl⟩

/-- C9: no path ending in the nested-layer suffix ever appears in a
successful extraction's file list, at any recursion depth; and a regular
entry whose sanitized target ends in the suffix is written to disk (the
file is present in the final disk state) and recursed into (the file list
is the nested stream's spec-side list spliced before the remaining
entries'), while the target itself is absent from the returned list. -/
theorem layer_files_not_listed :
    (∀ (root : String) (t : Tar) (fs : FState) (fl dl : List String) (fs' : FState),
       extractTar root t fs = (.ok (fl, dl), fs') →
       ∀ p ∈ fl, hasSuffixStr p layerSuffix = false)
  ∧ (∀ (root n : String) (size : Nat) (i r : Tar) (fs : FState)
       (fl dl : List String) (fs' : FState) (tgt : String),
       sanitizeArchivePath root n = .ok tgt → hasSuffixStr tgt layerSuffix = true →
       extractTar root (.regTar n size i r) fs = (.ok (fl, dl), fs') →
       (fsGetFile fs' tgt).isSome = true ∧
       fl = specFileList root i ++ specFileList root r ∧ tgt ∉ fl) := by
  constructor
  · intro root t fs fl dl fs' h p hp
    have h1 : (extractTar root t fs).1 = .ok (fl, dl) := by rw [h]
    rw [extractTar_fst] at h1
    have hfl := extractInv_files root t fl dl h1
    exact specFileList_no_suffix root t p (hfl ▸ hp)
  · intro root n size i r fs fl dl fs' tgt hsan hs h
    simp only [extractTar] at h
    split at h
    next e heq => rw [heq] at hsan; cases hsan
    next tgt' heq =>
      rw [heq] at hsan
      injection hsan with htgt
      subst htgt
      by_cases hc : copyCeiling ≤ size
      · rw [if_pos hc] at h
        cases h
      · rw [if_neg hc, if_pos hs] at h
        split at h
        next fi di fs2 heqi =>
          split at h
          next f d fs3 heqr =>
            cases h
            have hi1 : (extractTar root i (fsSetFile fs tgt' (.tarData size i))).1 =
                .ok (fi, di) := by rw [heqi]
            rw [extractTar_fst] at hi1
            have hfi := extractInv_files root i fi di hi1
            have hr1 : (extractTar root r fs2).1 = .ok (f, d) := by rw [heqr]
            rw [extractTar_fst] at hr1
            have hf := extractInv_files root r f d hr1
            refine ⟨?_, ?_, ?_⟩
            · have h0 : (fsGetFile (fsSetFile fs tgt' (.tarData size i)) tgt').isSome
                  = true := by rw [fsGetFile_fsSetFile_self]; rfl
              exact extractTar_file_mono root r _ _ _ tgt' heqr
                (extractTar_file_mono root i _ _ _ tgt' heqi h0)
            · rw [hfi, hf]
            · intro hmem
              have hfalse : hasSuffixStr tgt' layerSuffix = false := by
                rcases List.mem_append.mp hmem with hm | hm
                · exact specFileList_no_suffix root i tgt' (hfi ▸ hm)
                · exact specFileList_no_suffix root r tgt' (hf ▸ hm)
              rw [hs] at hfalse
              cases hfalse
          next e fs3 heqr => cases h
        next e fs2 heqi => cases h

theorem layer_files_not_listed_witness :
    hasSuffixStr "/r/in" layerSuffix = false ∧
    ((fsGetFile (extractTar "/r" c9Tar emptyFS).2 "/r/l-layer.tar").isSome = true ∧
     ["/r/in"] = specFileList "/r" (.regRaw "in" 1 .nil) ++ specFileList "/r" .nil ∧
     "/r/l-layer.tar" ∉ (["/r/in"] : List String)) :=
  ⟨layer_files_not_listed.1 "/r" c9Tar emptyFS ["/r/in"] []
      (extractTar "/r" c9Tar emptyFS).2 rfl "/r/in" (List.mem_singleton.mpr rfl),
   layer_files_not_listed.2 "/r" "l-layer.tar" 4 (.regRaw "in" 1 .nil) .nil emptyFS
      ["/r/in"] [] (extractTar "/r" c9Tar emptyFS).2 "/r/l-layer.tar" rfl rfl rfl⟩

theorem appendRepoTags_fields : ∀ (tags : List JValue) (img img' : ImageInfo),
    appendRepoTags img tags = .ok img' → img'.Arch = img.Arch ∧ img'.OS = img.OS := by
  intro tags
  induction tags with
  | nil =>
    intro img img' h
    simp only [appendRepoTags] at h
    cases h
    exact ⟨rfl, rfl⟩
  | cons t rest ih =>
    intro img img' h
    cases t with
    | jstr s =>
      simp only [appendRepoTags] at h
      exact ih { img with RepoTags := img.RepoTags ++ [s] } img' h
    | jnull => simp only [appendRepoTags] at h; cases h
    | jbool b => simp only [appendRepoTags] at h; cases h
    | jnum k => simp only [appendRepoTags] at h; cases h
    | jarr xs => simp only [appendRepoTags] at h; cases h
    | jobj fields => simp only [appendRepoTags] at h; cases h

/-- C3: whenever the manifest-pattern search over the file inventory does
not yield exactly one path, `getImageInfo` aborts with the cardinality
failure and the carried image record is the unchanged input (architecture,
operating system and repo tags still unset); and whenever a read and
parsed manifest holds a record count other than one, `readManifest` aborts
with the cardinality failure, the record likewise untouched. -/
theorem manifest_cardinality_fails :
    (∀ (root : String) (fs : FState) (img : ImageInfo),
       (checkForSpec (filepathJoin root "manifest.json") img.FileList).length ≠ 1 →
       getImageInfo root fs img = .error ⟨.cardinality, img⟩)
  ∧ (∀ (root : String) (fs : FState) (img : ImageInfo) (m : String) (d : FileData)
       (recs : List (List (String × JValue))),
       fsGetFile fs m = some d → jsonRecords d = some recs → recs.length ≠ 1 →
       readManifest root fs img m = .error ⟨.cardinality, img⟩) := by
  constructor
  · intro root fs img hlen
    simp only [getImageInfo]
    split
    next m heq =>
      exfalso
      apply hlen
      rw [heq]
      rfl
    next => rfl
  · intro root fs img m d recs hget hrecs hlen
    simp only [readManifest, hget, hrecs]
    cases recs with
    | nil => rfl
    | cons a l =>
      cases l with
      | nil => exact absurd rfl hlen
      | cons b l2 => rfl

theorem manifest_cardinality_fails_witness :
    getImageInfo "/r" emptyFS ⟨"img", [], "", "", [], []⟩ =
      .error ⟨.cardinality, ⟨"img", [], "", "", [], []⟩⟩ ∧
    readManifest "/r" ⟨[("m", .jsonData 2 (.jarr []))], []⟩
        ⟨"img", [], "", "", [], []⟩ "m" =
      .error ⟨.cardinality, ⟨"img", [], "", "", [], []⟩⟩ :=
  ⟨manifest_cardinality_fails.1 "/r" emptyFS ⟨"img", [], "", "", [], []⟩ (by decide),
   manifest_cardinality_fails.2 "/r" ⟨[("m", .jsonData 2 (.jarr []))], []⟩
     ⟨"img", [], "", "", [], []⟩ "m" (.jsonData 2 (.jarr [])) [] rfl rfl (by decide)⟩

/-- C5: a successful manifest resolution draws `Arch` and `OS` exactly
from the string values of the `architecture` and `os` keys of the parsed
config object reached through the single manifest record's `Config` field;
and resolution fails (rather than leaving the fields silently empty)
whenever the config file is absent, does not parse as an object, or its
`architecture` or `os` key is missing or not a string. -/
theorem image_attrs_from_config :
    (∀ (root : String) (fs : FState) (img img' : ImageInfo) (m : String),
       readManifest root fs img m = .ok img' →
       ∃ d man0 cfg cd cfgres,
         fsGetFile fs m = some d ∧ jsonRecords d = some [man0] ∧
         man0.lookup "Config" = some (.jstr cfg) ∧
         fsGetFile fs (filepathJoin root cfg) = some cd ∧
         jsonObject cd = some cfgres ∧
         cfgres.lookup "architecture" = some (.jstr img'.Arch) ∧
         cfgres.lookup "os" = some (.jstr img'.OS))
  ∧ (∀ (root : String) (fs : FState) (img : ImageInfo) (m : String) (d : FileData)
       (man0 : List (String × JValue)) (cfg : String),
       fsGetFile fs m = some d → jsonRecords d = some [man0] →
       man0.lookup "Config" = some (.jstr cfg) →
       fsGetFile fs (filepathJoin root cfg) = none →
       ∃ e, readManifest root fs img m = .error e)
  ∧ (∀ (root : String) (fs : FState) (img : ImageInfo) (m : String) (d cd : FileData)
       (man0 : List (String × JValue)) (cfg : String),
       fsGetFile fs m = some d → jsonRecords d = some [man0] →
       man0.lookup "Config" = some (.jstr cfg) →
       fsGetFile fs (filepathJoin root cfg) = some cd → jsonObject cd = none →
       ∃ e, readManifest root fs img m = .error e)
  ∧ (∀ (root : String) (fs : FState) (img : ImageInfo) (m : String) (d cd : FileData)
       (man0 cfgres : List (String × JValue)) (cfg : String),
       fsGetFile fs m = some d → jsonRecords d = some [man0] →
       man0.lookup "Config" = some (.jstr cfg) →
       fsGetFile fs (filepathJoin root cfg) = some cd → jsonObject cd = some cfgres →
       (∀ s, cfgres.lookup "architecture" ≠ some (.jstr s)) →
       ∃ e, readManifest root fs img m = .error e)
  ∧ (∀ (root : String) (fs : FState) (img : ImageInfo) (m : String) (d cd : FileData)
       (man0 cfgres : List (String × JValue)) (cfg : String),
       fsGetFile fs m = some d → jsonRecords d = some [man0] →
       man0.lookup "Config" = some (.jstr cfg) →
       fsGetFile fs (filepathJoin root cfg) = some cd → jsonObject cd = some cfgres →
       (∀ s, cfgres.lookup "os" ≠ some (.jstr s)) →
       ∃ e, readManifest root fs img m = .error e) := by
  refine ⟨?_, ?_, ?_, ?_, ?_⟩
  · intro root fs img img' m h
    simp only [readManifest] at h
    split at h <;> try cases h
    rename_i d heqd
    split at h <;> try cases h
    rename_i manres heqr
    split at h <;> try cases h
    rename_i man0
    split at h <;> try cases h
    rename_i cfg heqc
    split at h <;> try cases h
    rename_i cd heqcd
    split at h <;> try cases h
    rename_i cfgres heqobj
    split at h <;> try cases h
    rename_i arch heqa
    split at h <;> try cases h
    rename_i osname heqo
    split at h <;> try cases h
    rename_i tags heqt
    obtain ⟨hA, hO⟩ := appendRepoTags_fields tags _ img' h
    exact ⟨d, man0, cfg, cd, cfgres, heqd, heqr, heqc, heqcd, heqobj,
      by rw [hA]; exact heqa, by rw [hO]; exact heqo⟩
  · intro root fs img m d man0 cfg hd hr hcfg hnone
    simp only [readManifest, hd, hr, hcfg, hnone]
    exact ⟨_, rfl⟩
  · intro root fs img m d cd man0 cfg hd hr hcfg hcd hobj
    simp only [readManifest, hd, hr, hcfg, hcd, hobj]
    exact ⟨_, rfl⟩
  · intro root fs img m d cd man0 cfgres cfg hd hr hcfg hcd hobj hbad
    simp only [readManifest, hd, hr, hcfg, hcd, hobj]
    cases harch : cfgres.lookup "architecture" with
    | none => exact ⟨_, rfl⟩
    | some av =>
      cases av with
      | jnull => exact ⟨_, rfl⟩
      | jbool b => exact ⟨_, rfl⟩
      | jnum k => exact ⟨_, rfl⟩
      | jarr xs => exact ⟨_, rfl⟩
      | jobj fields => exact ⟨_, rfl⟩
      | jstr s => exact absurd harch (hbad s)
  · intro root fs img m d cd man0 cfgres cfg hd hr hcfg hcd hobj hbad
    simp only [readManifest, hd, hr, hcfg, hcd, hobj]
    cases harch : cfgres.lookup "architecture" with
    | none => exact ⟨_, rfl⟩
    | some av =>
      cases av with
      | jnull => exact ⟨_, rfl⟩
      | jbool b => exact ⟨_, rfl⟩
      | jnum k => exact ⟨_, rfl⟩
      | jarr xs => exact ⟨_, rfl⟩
      | jobj fields => exact ⟨_, rfl⟩
      | jstr arch =>
        cases hos : cfgres.lookup "os" with
        | none => exact ⟨_, rfl⟩
        | some ov =>
          cases ov with
          | jnull => exact ⟨_, rfl⟩
          | jbool b => exact ⟨_, rfl⟩
          | jnum k => exact ⟨_, rfl⟩
          | jarr xs => exact ⟨_, rfl⟩
          | jobj fields => exact ⟨_, rfl⟩
          | jstr s => exact absurd hos (hbad s)

theorem image_attrs_from_config_witness :
    ∃ d man0 cfg cd cfgres,
      fsGetFile c5fs "m" = some d ∧ jsonRecords d = some [man0] ∧
      man0.lookup "Config" = some (.jstr cfg) ∧
      fsGetFile c5fs (filepathJoin "/r" cfg) = some cd ∧
      jsonObject cd = some cfgres ∧
      cfgres.lookup "architecture" = some (.jstr "arm64") ∧
      cfgres.lookup "os" = some (.jstr "linux") :=
  image_attrs_from_config.1 "/r" c5fs ⟨"n", [], "", "", [], []⟩
    ⟨"n", ["t:1"], "arm64", "linux", [], []⟩ "m" rfl

/-- C7: extracting the minimal well-formed single-layer archive and
resolving its manifest yields architecture `amd64`, operating system
`linux`, the repo tag, and a file list containing the sanitized
extraction-root path of `etc/hostname`. -/
theorem roundtrip_minimal_image :
    (extractTar "/kr" c7Tar emptyFS).1 =
      .ok (["/kr/manifest.json", "/kr/config.json", "/kr/etc/hostname"], []) ∧
    getImageInfo "/kr" (extractTar "/kr" c7Tar emptyFS).2
        ⟨"example", [], "", "",
         ["/kr/manifest.json", "/kr/config.json", "/kr/etc/hostname"], []⟩ =
      .ok ⟨"example", ["example:latest"], "amd64", "linux",
           ["/kr/manifest.json", "/kr/config.json", "/kr/etc/hostname"], []⟩ ∧
    "/kr/etc/hostname" ∈
      ["/kr/manifest.json", "/kr/config.json", "/kr/etc/hostname"] :=
  ⟨rfl, rfl, by simp⟩

theorem reMatchHere_iff : ∀ (p s : List Char), reMatchHere p s = true ↔
    ∃ mid suf, s = mid ++ suf ∧ List.Forall₂ dotCharMatch p mid := by
  intro p
  induction p with
  | nil =>
    intro s
    simp only [reMatchHere]
    constructor
    · intro _
      exact ⟨[], s, rfl, List.Forall₂.nil⟩
    · intro _
      trivial
  | cons pc ps ih =>
    intro s
    cases s with
    | nil =>
      simp only [reMatchHere]
      constructor
      · intro hfalse
        cases hfalse
      · rintro ⟨mid, suf, heq, hf⟩
        cases hf with
        | cons hx hrest => cases heq
    | cons c cs =>
      simp only [reMatchHere, Bool.and_eq_true]
      constructor
      · rintro ⟨h1, h2⟩
        obtain ⟨mid, suf, heq, hf⟩ := (ih cs).mp h2
        refine ⟨c :: mid, suf, by rw [heq]; rfl, List.Forall₂.cons ?_ hf⟩
        by_cases hpc : pc = '.'
        · rw [if_pos hpc] at h1
          simp only [dotCharMatch, if_pos hpc]
          exact bne_iff_ne.mp h1
        · rw [if_neg hpc] at h1
          simp only [dotCharMatch, if_neg hpc]
          exact eq_of_beq h1
      · rintro ⟨mid, suf, heq, hf⟩
        cases hf with
        | cons hx hrest =>
          rename_i b l2
          simp only [List.cons_append] at heq
          injection heq with hcb hcs
          subst hcb
          constructor
          · by_cases hpc : pc = '.'
            · rw [if_pos hpc]
              simp only [dotCharMatch, if_pos hpc] at hx
              exact bne_iff_ne.mpr hx
            · rw [if_neg hpc]
              simp only [dotCharMatch, if_neg hpc] at hx
              exact beq_iff_eq.mpr hx
          · exact (ih cs).mpr ⟨l2, suf, hcs, hrest⟩

theorem reSearch_iff : ∀ (p s : List Char), reSearch p s = true ↔
    ∃ pre mid suf, s = pre ++ mid ++ suf ∧ List.Forall₂ dotCharMatch p mid := by
  intro p s
  induction s with
  | nil =>
    simp only [reSearch]
    rw [reMatchHere_iff]
    constructor
    · rintro ⟨mid, suf, heq, hf⟩
      exact ⟨[], mid, suf, by simpa using heq, hf⟩
    · rintro ⟨pre, mid, suf, heq, hf⟩
      obtain ⟨h2, h3⟩ := List.append_eq_nil.mp heq.symm
      obtain ⟨h4, h5⟩ := List.append_eq_nil.mp h2
      exact ⟨mid, suf, by simp [h5, h3], hf⟩
  | cons c cs ih =>
    simp only [reSearch, Bool.or_eq_true]
    constructor
    · rintro (h | h)
      · obtain ⟨mid, suf, heq, hf⟩ := (reMatchHere_iff p (c :: cs)).mp h
        exact ⟨[], mid, suf, by simpa using heq, hf⟩
      · obtain ⟨pre, mid, suf, heq, hf⟩ := ih.mp h
        exact ⟨c :: pre, mid, suf, by simp [heq], hf⟩
    · rintro ⟨pre, mid, suf, heq, hf⟩
      cases pre with
      | nil =>
        left
        exact (reMatchHere_iff p (c :: cs)).mpr ⟨mid, suf, by simpa using heq, hf⟩
      | cons c2 pre2 =>
        right
        simp only [List.cons_append] at heq
        injection heq with h1 h2
        exact ih.mpr ⟨pre2, mid, suf, h2, hf⟩

theorem checkForSpec_filter (spec : String) (fl : List String) :
    checkForSpec spec fl = fl.filter (fun name => reSearch spec.data name.data) := by
  induction fl with
  | nil => rfl
  | cons name rest ih =>
    simp only [checkForSpec, List.filter]
    cases hm : reSearch spec.data name.data with
    | true => simp [hm, ih]
    | false => simp [hm, ih]

/-- C10 (amended): `checkForSpec` returns exactly the input entries, in
input order, in which the pattern matches somewhere as an unanchored
regular expression — an entry matches when it decomposes as
`pre ++ mid ++ suf` with the pattern matching `mid` character-wise, a
literal character matching itself and `'.'` matching any character other
than a newline — so the search is neither an exact-path nor a
filename-equality test: the manifest pattern also selects a path that
merely contains a match, with `'.'` crossing a differing character. -/
theorem checkForSpec_regex_spec :
    (∀ (spec : String) (fl : List String),
       checkForSpec spec fl = fl.filter (fun name => reSearch spec.data name.data))
  ∧ (∀ (p s : List Char), reSearch p s = true ↔
       ∃ pre mid suf, s = pre ++ mid ++ suf ∧ List.Forall₂ dotCharMatch p mid)
  ∧ checkForSpec "/kr/manifest.json"
      ["/data/kr/manifestXjson.bak", "/kr/config.json"] =
      ["/data/kr/manifestXjson.bak"] :=
  ⟨checkForSpec_filter, reSearch_iff, rfl⟩

/-- C10 counterexample: the claim reads `'.'` as matching any character,
but the matcher compiled by `regexp.MustCompile` does not let `'.'` match
a newline: on the one-character newline entry, `checkForSpec` with pattern
`"."` selects nothing, while the claim-side any-character matcher selects
the entry. -/
theorem checkForSpec_dot_newline :
    checkForSpec "." ["\n"] = [] ∧
    List.filter (fun s => claimSearch ".".data s.data) ["\n"] = ["\n"] :=
  ⟨rfl, rfl⟩

end KArmor
